import Mathlib

/-!
Verification of the godby lock-free primitive library against its specification.

The development shallowly embeds the relevant C++ sources:
* godby/AtomicQueue.h   - bounded MPMC/SPSC ring buffers (index remapping,
  head/tail counters, capacity computation);
* godby/AtomicSharedPointer.h - the wait-free reference counter and the
  atomic shared-pointer slot;
* godby/StealingQueue.h - the Chase-Lev work-stealing deque;
* godby/AtomicHashmap.h - the multi-level open-addressed concurrent hash map.

Machine integers are modelled as Nat with explicit reduction modulo 2^32
(C++ unsigned) or 2^64 (size_t) at the operations where wrap-around can
occur.  Concurrency is modelled sequentially: an atomic read-modify-write
is a state transformation, and a compare-exchange whose expected value was
read in the same operation (with no interleaving) succeeds.
-/

/-- 2^32, the modulus of the C++ type unsigned used by the queue counters
and by the wait-free counter instantiation (uint32_t). -/
def U32 : Nat := 4294967296

/-- 2^64, the modulus of the C++ type size_t used by the stealing deque. -/
def U64 : Nat := 18446744073709551616

namespace AtomicQueueModel

/-- godby::MSB from Math.h: MSB n = (n > 1) ? 1 + MSB (n >> 1) : 0.
This is the index of the most significant set bit, i.e. floor(log2 n),
with MSB 0 = MSB 1 = 0. -/
def MSB (n : Nat) : Nat :=
  if n > 1 then 1 + MSB (n / 2) else 0
termination_by n
decreasing_by omega

/-- godby::NextPowerOfTwo from Math.h.  The C++20 branch is
std::bit_ceil x: the smallest power of two that is not less than x
(1 for x = 0).  bit_ceil satisfies bit_ceil x = 2 * bit_ceil (ceil (x/2))
for x >= 2, which is the recursion used here. -/
def NextPowerOfTwo (x : Nat) : Nat :=
  if x ≤ 1 then 1 else 2 * NextPowerOfTwo ((x + 1) / 2)
termination_by x
decreasing_by omega

/-- details::remap_index<BITS> from AtomicQueue.h, on the C++ type
unsigned (32 bits):

  unsigned constexpr mix_mask = (1u << BITS) - 1;
  unsigned const mix = (index ^ (index >> BITS)) & mix_mask;
  return index ^ mix ^ (mix << BITS);

The only subexpression that can exceed 32 bits is the shift mix << BITS,
hence the explicit reduction there; the outer reduction records that the
result is an unsigned value.  The BITS = 0 specialization returns the
index unchanged, which coincides with this formula (mix_mask = 0). -/
def remap_index (BITS i : Nat) : Nat :=
  let mix_mask := (1 <<< BITS) - 1
  let mix := (i ^^^ (i >>> BITS)) &&& mix_mask
  (i ^^^ mix ^^^ ((mix <<< BITS) % U32)) % U32

/-- The buffer size chosen by the AtomicQueueB constructor
(AtomicQueue.h line 400):

  size_(std::max(godby::NextPowerOfTwo(size), 1u << (SHUFFLE_BITS * 2)))

where SHUFFLE_BITS = GetCacheLineIndexBits<ELEMENTS_PER_CACHE_LINE>::value
= MSB epc and epc = CACHE_LINE_SIZE / sizeof(std::atomic<T>) is the number
of elements per cache line.  capacity() returns this size_ unchanged. -/
def atomicQueueBCapacity (size epc : Nat) : Nat :=
  max (NextPowerOfTwo size) (2 ^ (MSB epc * 2))

/-- The 32-bit difference head - tail computed on unsigned operands
(both < 2^32). -/
def usub32 (a b : Nat) : Nat := (a + U32 - b) % U32

/-- static_cast<int> of an unsigned 32-bit value: two's-complement
reinterpretation. -/
def toInt32 (d : Nat) : Int := if d < 2 ^ 31 then (d : Int) else (d : Int) - (U32 : Int)

/-- AtomicQueueCommon::was_size (AtomicQueue.h lines 272-276):
  return std::max(static_cast<int>(head_ - tail_), 0);
clamped at zero because consumers doing pop (rather than try_pop) on an
empty queue can make tail_ exceed head_. -/
def was_size (head tail : Nat) : Nat := (max (toInt32 (usub32 head tail)) 0).toNat

/-- The guard under which try_push proceeds (AtomicQueue.h lines 204-212):
it returns false when static_cast<int>(head - tail) >= static_cast<int>(size_),
so the reservation happens exactly when the signed difference is < N. -/
def tryPushOk (N head tail : Nat) : Prop := toInt32 (usub32 head tail) < (N : Int)

/-- The guard under which try_pop proceeds (AtomicQueue.h lines 221-229):
it returns false when static_cast<int>(head - tail) <= 0. -/
def tryPopOk (head tail : Nat) : Prop := 0 < toInt32 (usub32 head tail)

/-- The (head_, tail_) states of a queue of size N reachable from the
initial state using only the guarded non-blocking operations try_push and
try_pop.  A successful try_push increments head_ (via CAS) and a
successful try_pop increments tail_; unsigned counters wrap modulo 2^32. -/
inductive ReachTry (N : Nat) : Nat × Nat → Prop where
  | start : ReachTry N (0, 0)
  | push {h t : Nat} : ReachTry N (h, t) → tryPushOk N h t → ReachTry N ((h + 1) % U32, t)
  | pop {h t : Nat} : ReachTry N (h, t) → tryPopOk h t → ReachTry N (h, (t + 1) % U32)

/-- The (head_, tail_) states reachable when the blocking push and pop are
also allowed.  push unconditionally reserves a slot with
head_.fetch_add(1) before waiting on the slot (AtomicQueue.h lines
235-247), and pop unconditionally reserves with tail_.fetch_add(1)
(lines 249-260), so their counter updates are unguarded steps. -/
inductive ReachAny (N : Nat) : Nat × Nat → Prop where
  | start : ReachAny N (0, 0)
  | tryPush {h t : Nat} : ReachAny N (h, t) → tryPushOk N h t → ReachAny N ((h + 1) % U32, t)
  | tryPop {h t : Nat} : ReachAny N (h, t) → tryPopOk h t → ReachAny N (h, (t + 1) % U32)
  | push {h t : Nat} : ReachAny N (h, t) → ReachAny N ((h + 1) % U32, t)
  | pop {h t : Nat} : ReachAny N (h, t) → ReachAny N (h, (t + 1) % U32)

end AtomicQueueModel

namespace WaitFreeCounterModel

/-- The zero flag of details::WaitFreeCounter<uint32_t>
(AtomicSharedPointer.h line 716): T(1) << (sizeof(T)*8 - 1) = 2^31. -/
def zero_flag : Nat := 2 ^ 31

/-- The zero-pending flag (line 717): T(1) << (sizeof(T)*8 - 2) = 2^30. -/
def zero_pending_flag : Nat := 2 ^ 30

/-- WaitFreeCounter::load (lines 685-690), sequentially: read the value;
if it is 0, the CAS to (zero_flag | zero_pending_flag) succeeds and 0 is
returned; otherwise return 0 when the zero flag is set, else the value.
Returns (result, new counter state). -/
def wfcLoad (s : Nat) : Nat × Nat :=
  if s = 0 then (0, zero_flag ||| zero_pending_flag)
  else ((if s &&& zero_flag ≠ 0 then 0 else s), s)

/-- WaitFreeCounter::increment (lines 694-698): val = fetch_add(arg);
return (val & zero_flag) == 0.  The argument is a machine word (n < 2^32).
Returns (result, new counter state). -/
def wfcIncrement (s n : Nat) : Bool × Nat :=
  (s &&& zero_flag == 0, (s + n) % U32)

/-- WaitFreeCounter::decrement (lines 702-713), sequentially: prev =
fetch_sub(arg); if prev == arg, CAS the (now zero) counter to zero_flag;
the CAS-failure branch that tests the pending bit and exchanges with
zero_flag cannot be taken without interleaving but is kept for fidelity.
The argument is a machine word (n < 2^32).  Returns (result, new state). -/
def wfcDecrement (s n : Nat) : Bool × Nat :=
  let s1 := (s + (U32 - n)) % U32
  if s = n then
    if s1 = 0 then (true, zero_flag)
    else if s1 &&& zero_pending_flag ≠ 0 then (true, zero_flag)
    else (false, s1)
  else (false, s1)

/-- Run a list of increments; returns the final counter state and the list
of results in call order. -/
def wfcIncRun (s : Nat) : List Nat → Nat × List Bool
  | [] => (s, [])
  | n :: ns =>
    ((wfcIncRun (wfcIncrement s n).2 ns).1,
      (wfcIncrement s n).1 :: (wfcIncRun (wfcIncrement s n).2 ns).2)

/-- An operation on the wait-free counter: an increment or a decrement by
a machine word. -/
inductive WfcOp where
  | inc (n : Nat)
  | dec (n : Nat)

/-- Number of decrements that return true when running the operation list
from counter state s. -/
def trueDecCount (s : Nat) : List WfcOp → Nat
  | [] => 0
  | .inc n :: ops => trueDecCount (wfcIncrement s n).2 ops
  | .dec n :: ops => (wfcDecrement s n).1.toNat + trueDecCount (wfcDecrement s n).2 ops

/-- Results of the decrements (in call order) when running the operation
list from counter state s; increments contribute no entry. -/
def decResults (s : Nat) : List WfcOp → List Bool
  | [] => []
  | .inc n :: ops => decResults (wfcIncrement s n).2 ops
  | .dec n :: ops => (wfcDecrement s n).1 :: decResults (wfcDecrement s n).2 ops

/-- The logical phase of a reference counter: live with a positive count
c, or dead (the counter has been decremented to zero) with e the sum of
the arguments of the failed increments performed since then. -/
inductive WfcPhase where
  | live (c : Nat)
  | dead (e : Nat)

/-- The machine word corresponding to a phase: a live counter stores its
count; a dead counter stores zero_flag plus the failed-increment residue. -/
def phaseWord : WfcPhase → Nat
  | .live c => c
  | .dead e => zero_flag + e

/-- Modelled from the spec: valid reference-counting usage of the counter
(each decrement releases a previously held reference).  A decrement by n
may only happen while the counter is live with count at least n, with
n at least 1; the count stays below 2^30 (the documented maximum is
2^30 - 1); after the counter reaches zero only increments occur (they
fail), and their total stays below 2^30. -/
inductive WfcValid : WfcPhase → List WfcOp → Prop where
  | nil (p : WfcPhase) : WfcValid p []
  | live_inc {c n : Nat} {ops : List WfcOp} : 1 ≤ c → c + n < 2 ^ 30 →
      WfcValid (.live (c + n)) ops → WfcValid (.live c) (.inc n :: ops)
  | live_dec {c n : Nat} {ops : List WfcOp} : 1 ≤ n → n < c → c < 2 ^ 30 →
      WfcValid (.live (c - n)) ops → WfcValid (.live c) (.dec n :: ops)
  | live_dec_zero {c : Nat} {ops : List WfcOp} : 1 ≤ c → c < 2 ^ 30 →
      WfcValid (.dead 0) ops → WfcValid (.live c) (.dec c :: ops)
  | dead_inc {e n : Nat} {ops : List WfcOp} : e + n < 2 ^ 30 →
      WfcValid (.dead (e + n)) ops → WfcValid (.dead e) (.inc n :: ops)

end WaitFreeCounterModel

namespace AtomicSharedPtrModel

open WaitFreeCounterModel

/-- A control block (details::ControlBlockBase): the strong count is a
WaitFreeCounter<uint32_t> modelled by its raw machine word, the weak
count a plain atomic word, payload the address returned by get_ptr(),
and disposed records whether dispose() has run. -/
structure Block where
  strong : Nat
  weak : Nat
  payload : Nat
  disposed : Bool

/-- The state of one AtomicSharedPtr together with the control-block
heap: slot is the atomic control-block pointer (none = nullptr), heap
maps block addresses to blocks, retired lists the blocks handed to the
hazard-pointer engine by retire(). -/
structure AspState where
  slot : Option Nat
  heap : Nat → Block
  retired : List Nat

/-- A shared handle (SharedPtr): empty, or a pair of the managed object
address and the control-block address. -/
def Handle : Type := Option (Nat × Nat)

/-- Update one block in the heap. -/
def setBlock (st : AspState) (b : Nat) (blk : Block) : AspState :=
  { st with heap := fun i => if i = b then blk else st.heap i }

/-- ControlBlockBase::decrement_strong_count (AtomicSharedPointer.h lines
808-821): decrement the strong WaitFreeCounter by 1; if that zeroed it,
dispose the payload and decrement the weak count, retiring the block when
the weak count hits zero. -/
def decrement_strong_count (b : Nat) (st : AspState) : AspState :=
  let blk := st.heap b
  let d := wfcDecrement blk.strong 1
  let st1 := setBlock st b { blk with strong := d.2 }
  if d.1 then
    let blk1 := (st1.heap b)
    let st2 := setBlock st1 b { blk1 with disposed := true, weak := (blk1.weak + (U64 - 1)) % U64 }
    if blk1.weak = 1 then { st2 with retired := st2.retired ++ [b] } else st2
  else st1

/-- AtomicSharedPtr::store (lines 1827-1832): exchange the slot with the
control block of the desired handle (whose reference is transferred into
the slot), then release the previous block with decrement_strong_count. -/
def aspStore (st : AspState) (desired : Handle) : AspState :=
  let old := st.slot
  let st1 := { st with slot := desired.map Prod.snd }
  match old with
  | none => st1
  | some b => decrement_strong_count b st1

/-- AtomicSharedPtr::load (lines 1813-1825), sequentially: protect the
slot (a sequential protect returns the slot value); a null block gives
the empty handle; otherwise increment_strong_count_if_nonzero, i.e.
WaitFreeCounter::increment by 1, and on success wrap the block with
make_shared_from_ctrl_block (the pointer is get_ptr() of the block).  On
failure the code retries, but with no interleaving every retry re-reads
the same state, so the loop never exits: that divergence is the none
result. -/
def aspLoad (st : AspState) : Option (Handle × AspState) :=
  match st.slot with
  | none => some ((none : Handle), st)
  | some b =>
    let blk := st.heap b
    let r := wfcIncrement blk.strong 1
    if r.1 then some ((some (blk.payload, b) : Handle), setBlock st b { blk with strong := r.2 })
    else none

/-- The handle hypotheses of a single-threaded store/load round trip: an
empty handle, or a handle whose pointer matches the control block payload,
whose block is live (strong count below the flag region), and which holds
a strong reference of its own in addition to the one the slot may hold on
the same block. -/
def HandleOk (st : AspState) (x : Handle) : Prop :=
  match x with
  | none => True
  | some pb =>
      (st.heap pb.2).payload = pb.1 ∧
      (st.heap pb.2).strong < 2 ^ 30 ∧
      (if st.slot = some pb.2 then 2 else 1) ≤ (st.heap pb.2).strong

end AtomicSharedPtrModel

namespace StealingQueueModel

variable {T : Type}

/-- StealingQueue::Array (StealingQueue.h lines 18-58): capacity C (a
power of two), physical slots S indexed by i & (C - 1).  The mask M is
C - 1.  Slots are godby::Atomic<T>, default-initialized, modelled by a
total function from physical indices. -/
structure SqArray (T : Type) where
  C : Nat
  S : Nat → T

/-- Array::push(i, o): S[i & M].store(o). -/
def sqArrayPush (a : SqArray T) (i : Nat) (o : T) : SqArray T :=
  { a with S := fun j => if j = i &&& (a.C - 1) then o else a.S j }

/-- Array::pop(i): return S[i & M].load(). -/
def sqArrayPop (a : SqArray T) (i : Nat) : T :=
  a.S (i &&& (a.C - 1))

/-- Array::resize(b, t) (lines 52-57): allocate an Array of capacity 2*C
(slots default-initialized) and copy entry i for each i from t while
i != b, incrementing i as a size_t; the loop runs (b - t) mod 2^64 times. -/
def sqArrayResize [Inhabited T] (a : SqArray T) (b t : Nat) : SqArray T :=
  (List.range ((b + (U64 - t % U64)) % U64)).foldl
    (fun acc k => sqArrayPush acc ((t + k) % U64) (sqArrayPop a ((t + k) % U64)))
    { C := 2 * a.C, S := fun _ => default }

/-- The owner-visible state of a StealingQueue: top and bottom (size_t
counters), the current buffer, and the garbage list of retired buffers. -/
structure SqState (T : Type) where
  top : Nat
  bottom : Nat
  arr : SqArray T
  garbage : List (SqArray T)

/-- The StealingQueue constructor (lines 71-78): top = bottom = 0 and a
fresh buffer of the requested (power of two) capacity. -/
def sqInit (T : Type) [Inhabited T] (capacity : Nat) : SqState T :=
  { top := 0, bottom := 0, arr := { C := capacity, S := fun _ => default }, garbage := [] }

/-- StealingQueue::push (lines 128-146): read b = bottom, t = top, a =
array; if a->capacity() - 1 < (b - t) (size_t arithmetic) resize to
double capacity, record the old buffer in the garbage list and install
the new buffer; then write the item at logical index b and publish
bottom = b + 1. -/
def sqPush [Inhabited T] (s : SqState T) (item : T) : SqState T :=
  let b := s.bottom
  let t := s.top
  let a := s.arr
  let grown := a.C - 1 < (b + (U64 - t % U64)) % U64
  let a1 := if grown then sqArrayResize a b t else a
  let g1 := if grown then s.garbage ++ [a] else s.garbage
  { top := t, bottom := (b + 1) % U64, arr := sqArrayPush a1 b item, garbage := g1 }

/-- StealingQueue::pop (lines 154-176), sequentially: b = bottom - 1
(size_t, so it wraps at 0); store bottom = b; t = top; if t <= b read the
item at b; if additionally t == b this was the last item, the CAS
top -> top + 1 against thieves succeeds sequentially and bottom is
restored to b + 1; if t > b the queue was empty: restore bottom = b + 1
and return nothing.  Returns (result, new state). -/
def sqPop [Inhabited T] (s : SqState T) : Option T × SqState T :=
  let b := (s.bottom + (U64 - 1)) % U64
  let a := s.arr
  let t := s.top
  if t ≤ b then
    let item := some (sqArrayPop a b)
    if t = b then
      (item, { s with top := (t + 1) % U64, bottom := (b + 1) % U64 })
    else
      (item, { s with bottom := b })
  else
    ((none : Option T), { s with bottom := (b + 1) % U64 })

end StealingQueueModel

namespace AtomicHashmapModel

/-- Linux errno value ENOENT = 2; AtomicHashmap::Set returns -ENOENT. -/
def ENOENT : Int := 2

/-- Linux errno value ENOMEM = 12; AtomicHashmap::Set returns -ENOMEM. -/
def ENOMEM : Int := 12

variable {K V : Type} [DecidableEq K]

/-- One ConcurrentMapBucket (AtomicHashmap.h lines 209-312): a key-cell
slot and a value-cell slot, each either nil (0) or a pointer to a
reference-counted cell holding the key or value.  The model keeps the
payload of the cell a slot points to. -/
def Bucket (K V : Type) : Type := Option K × Option V

/-- ConcurrentMapBucket::IsOccupied(rhs) (lines 271-276): the key cell
exists and its key equals rhs. -/
def bucketIsOccupied (bk : Bucket K V) (k : K) : Bool := bk.1 = some k

/-- ConcurrentMapBucket::IsAvailable(rhs) (lines 278-283): the key cell
is absent or its key equals rhs. -/
def bucketIsAvailable (bk : Bucket K V) (k : K) : Bool := bk.1 = none ∨ bk.1 = some k

/-- The state of an AtomicHashmap: the level capacities M_level_capacity
and the concatenated bucket array M_buckets (its length is the sum of the
level capacities). -/
structure HmState (K V : Type) where
  levels : List Nat
  buckets : List (Bucket K V)

/-- Well-formedness tied to the constructor: every level capacity is a
positive prime (positivity is all the proofs need) and the bucket array
concatenates the levels. -/
def HmWF (st : HmState K V) : Prop :=
  (∀ c ∈ st.levels, 0 < c) ∧ st.buckets.length = st.levels.sum

/-- The probe walk shared by Lookup and Occupy (lines 507-544): at level i
the probed bucket is base_i + hash mod capacity_i where base_i is the sum
of the capacities of the earlier levels.  Returns the index of the first
bucket satisfying the given test. -/
def probeAux (h : Nat) (test : Bucket K V → Bool) :
    List Nat → Nat → List (Bucket K V) → Option Nat
  | [], _, _ => none
  | c :: rest, base, bs =>
    let idx := base + h % c
    if test (bs.getD idx ((none : Option K), (none : Option V))) then some idx
    else probeAux h test rest (base + c) bs

/-- AtomicHashmap::Lookup (lines 507-519): the first level whose bucket
IsOccupied by the key. -/
def hmLookup (hash : K → Nat) (st : HmState K V) (k : K) : Option Nat :=
  probeAux (hash k) (fun bk => bucketIsOccupied bk k) st.levels 0 st.buckets

/-- AtomicHashmap::Get (lines 343-347): Lookup, then AccessValue on the
found bucket; a missing bucket or a nil value cell is the empty accessor
(none). -/
def hmGet (hash : K → Nat) (st : HmState K V) (k : K) : Option V :=
  match hmLookup hash st k with
  | none => none
  | some idx => (st.buckets.getD idx ((none : Option K), (none : Option V))).2

/-- AtomicHashmap::Occupy (lines 521-544), sequentially: walk the levels;
at the first IsAvailable bucket allocate the key cell (keyAllocOk tells
whether ComposedKey::clone succeeds; on failure Occupy returns null at
once) and exchange it into the key slot, which succeeds with no
interleaving.  If no level is available, return null.  Returns the
occupied bucket index (if any) and the new state. -/
def hmOccupy (hash : K → Nat) (keyAllocOk : Bool) (st : HmState K V) (k : K) :
    Option Nat × HmState K V :=
  match probeAux (hash k) (fun bk => bucketIsAvailable bk k) st.levels 0 st.buckets with
  | none => (none, st)
  | some idx =>
    if keyAllocOk then
      (some idx,
        { st with
          buckets := st.buckets.set idx
            (some k, (st.buckets.getD idx ((none : Option K), (none : Option V))).2) })
    else (none, st)

/-- AtomicHashmap::Set (lines 350-362): Occupy a bucket (null gives
-ENOENT); allocate the value cell (valAllocOk tells whether
ComposedValue::clone succeeds; failure gives -ENOMEM); exchange it into
the value slot and return 0. -/
def hmSet (hash : K → Nat) (keyAllocOk valAllocOk : Bool) (st : HmState K V) (k : K) (v : V) :
    HmState K V × Int :=
  match hmOccupy hash keyAllocOk st k with
  | (none, st1) => (st1, -ENOENT)
  | (some idx, st1) =>
    if valAllocOk then
      ({ st1 with
          buckets := st1.buckets.set idx
            ((st1.buckets.getD idx ((none : Option K), (none : Option V))).1, some v) }, 0)
    else (st1, -ENOMEM)

/-- AtomicHashmap::Delete (lines 364-368): WalkKey visits every bucket
IsOccupied by the key and Cleanup swaps both slots to nil; returns 0. -/
def hmDelete (st : HmState K V) (k : K) : HmState K V × Int :=
  ({ st with
      buckets := st.buckets.map (fun bk =>
        if bucketIsOccupied bk k then ((none : Option K), (none : Option V)) else bk) }, 0)

/-- A hashmap mutation: Set (with both allocations succeeding) or Delete. -/
inductive HmOp (K V : Type) where
  | set (k : K) (v : V)
  | del (k : K)

/-- Apply one mutation. -/
def hmApply (hash : K → Nat) (st : HmState K V) : HmOp K V → HmState K V
  | .set k v => (hmSet hash true true st k v).1
  | .del k => (hmDelete st k).1

/-- Run a list of mutations left to right. -/
def hmRun (hash : K → Nat) (st : HmState K V) (ops : List (HmOp K V)) : HmState K V :=
  ops.foldl (hmApply hash) st

/-- The mutation touches neither Set nor Delete of the given key. -/
def hmOpAvoids (k : K) : HmOp K V → Prop
  | .set k2 _ => k2 ≠ k
  | .del k2 => k2 ≠ k

/-- The mutation is not a Set of the given key (Deletes are allowed). -/
def hmOpNotSet (k : K) : HmOp K V → Prop
  | .set k2 _ => k2 ≠ k
  | .del _ => True

end AtomicHashmapModel

namespace AtomicQueueModel

theorem MSB_eq_log (n : Nat) : MSB n = Nat.log 2 n := by
  induction n using Nat.strong_induction_on with
  | _ n ih =>
    rw [MSB]
    by_cases h : n > 1
    · have h2 : 2 ≤ n := by omega
      rw [if_pos h, ih (n / 2) (by omega), Nat.log_of_one_lt_of_le one_lt_two h2]
      omega
    · rw [if_neg h]
      interval_cases n
      · simp
      · simp

theorem NextPowerOfTwo_isPow (x : Nat) : ∃ k, NextPowerOfTwo x = 2 ^ k := by
  induction x using Nat.strong_induction_on with
  | _ x ih =>
    rw [NextPowerOfTwo]
    by_cases h : x ≤ 1
    · exact ⟨0, by rw [if_pos h]; rfl⟩
    · obtain ⟨k, hk⟩ := ih ((x + 1) / 2) (by omega)
      exact ⟨k + 1, by rw [if_neg h, hk]; ring⟩

theorem le_NextPowerOfTwo (x : Nat) : x ≤ NextPowerOfTwo x := by
  induction x using Nat.strong_induction_on with
  | _ x ih =>
    rw [NextPowerOfTwo]
    by_cases h : x ≤ 1
    · rw [if_pos h]; omega
    · rw [if_neg h]
      have := ih ((x + 1) / 2) (by omega)
      omega

/-- C9: the capacity chosen by the AtomicQueueB constructor for a
requested size is max(NextPowerOfTwo(size), 2^(2*SHUFFLE_BITS)) with
SHUFFLE_BITS the floor base-2 logarithm of the number of elements per
cache line; the capacity is always a power of two, is at least the
requested size, and is at least 2^(2*SHUFFLE_BITS) however small the
request. -/
theorem atomicQueueB_capacity_spec (size epc : Nat) :
    atomicQueueBCapacity size epc = max (NextPowerOfTwo size) (2 ^ (2 * Nat.log 2 epc)) ∧
    (∃ k, atomicQueueBCapacity size epc = 2 ^ k) ∧
    size ≤ atomicQueueBCapacity size epc ∧
    2 ^ (2 * MSB epc) ≤ atomicQueueBCapacity size epc := by
  refine ⟨?_, ?_, ?_, ?_⟩
  · rw [atomicQueueBCapacity, MSB_eq_log, Nat.mul_comm]
  · obtain ⟨k, hk⟩ := NextPowerOfTwo_isPow size
    rcases le_total (NextPowerOfTwo size) (2 ^ (MSB epc * 2)) with h | h
    · exact ⟨MSB epc * 2, by rw [atomicQueueBCapacity, max_eq_right h]⟩
    · exact ⟨k, by rw [atomicQueueBCapacity, max_eq_left h, hk]⟩
  · exact le_trans (le_NextPowerOfTwo size) (le_max_left _ _)
  · rw [atomicQueueBCapacity, Nat.mul_comm]
    exact le_max_right _ _

theorem remap_index_eq_pure (BITS i : Nat) (hB : BITS ≤ 16) (hi : i < 2 ^ 32) :
    remap_index BITS i
      = i ^^^ ((i ^^^ (i >>> BITS)) &&& (2 ^ BITS - 1))
          ^^^ (((i ^^^ (i >>> BITS)) &&& (2 ^ BITS - 1)) <<< BITS) := by
  have hU : U32 = 2 ^ 32 := by norm_num [U32]
  rw [remap_index]
  simp only [Nat.one_shiftLeft]
  have hmix : (i ^^^ (i >>> BITS)) &&& (2 ^ BITS - 1) < 2 ^ BITS := by
    have h1 : (i ^^^ (i >>> BITS)) &&& (2 ^ BITS - 1) ≤ 2 ^ BITS - 1 := Nat.and_le_right
    have h2 : 0 < 2 ^ BITS := Nat.two_pow_pos BITS
    omega
  have hshift : ((i ^^^ (i >>> BITS)) &&& (2 ^ BITS - 1)) <<< BITS < 2 ^ 32 := by
    rw [Nat.shiftLeft_eq]
    calc ((i ^^^ (i >>> BITS)) &&& (2 ^ BITS - 1)) * 2 ^ BITS
        < 2 ^ BITS * 2 ^ BITS := Nat.mul_lt_mul_of_pos_right hmix (Nat.two_pow_pos BITS)
      _ = 2 ^ (BITS + BITS) := by rw [Nat.pow_add]
      _ ≤ 2 ^ 32 := Nat.pow_le_pow_right (by norm_num) (by omega)
  have hmix32 : (i ^^^ (i >>> BITS)) &&& (2 ^ BITS - 1) < 2 ^ 32 :=
    lt_of_lt_of_le hmix (Nat.pow_le_pow_right (by norm_num) (by omega))
  rw [hU, Nat.mod_eq_of_lt hshift,
    Nat.mod_eq_of_lt (Nat.xor_lt_two_pow (Nat.xor_lt_two_pow hi hmix32) hshift)]

theorem remap_index_testBit (BITS i : Nat) (hB : BITS ≤ 16) (hi : i < 2 ^ 32) (k : Nat) :
    (remap_index BITS i).testBit k =
      if k < BITS then i.testBit (k + BITS)
      else if k < 2 * BITS then i.testBit (k - BITS)
      else i.testBit k := by
  rw [remap_index_eq_pure BITS i hB hi]
  simp only [Nat.testBit_xor, Nat.testBit_and, Nat.testBit_shiftLeft,
    Nat.testBit_two_pow_sub_one, Nat.testBit_shiftRight]
  by_cases h1 : k < BITS
  · have h2 : ¬ BITS ≤ k := by omega
    rw [if_pos h1, decide_eq_true h1, decide_eq_false h2, Nat.add_comm k BITS]
    cases i.testBit k <;> cases i.testBit (BITS + k) <;> simp
  · by_cases h2 : k < 2 * BITS
    · have h3 : BITS ≤ k := by omega
      have h4 : k - BITS < BITS := by omega
      have h5 : BITS + (k - BITS) = k := by omega
      rw [if_neg h1, if_pos h2, decide_eq_false h1, decide_eq_true h3, decide_eq_true h4, h5]
      cases i.testBit k <;> cases i.testBit (k - BITS) <;> simp
    · have h3 : BITS ≤ k := by omega
      have h4 : ¬ k - BITS < BITS := by omega
      rw [if_neg h1, if_neg h2, decide_eq_false h1, decide_eq_true h3, decide_eq_false h4]
      cases i.testBit k <;> cases i.testBit (BITS + k) <;> simp

theorem remap_index_lt (BITS i e : Nat) (hB : BITS ≤ 16) (h2B : 2 * BITS ≤ e) (he : e ≤ 32)
    (hi : i < 2 ^ e) : remap_index BITS i < 2 ^ e := by
  have hi32 : i < 2 ^ 32 := lt_of_lt_of_le hi (Nat.pow_le_pow_right (by norm_num) he)
  apply Nat.lt_pow_two_of_testBit
  intro j hj
  rw [remap_index_testBit BITS i hB hi32 j, if_neg (by omega), if_neg (by omega)]
  exact Nat.testBit_lt_two_pow
    (lt_of_lt_of_le hi (Nat.pow_le_pow_right (by norm_num) hj))

theorem remap_index_involutive (BITS i : Nat) (hB : BITS ≤ 16) (hi : i < 2 ^ 32) :
    remap_index BITS (remap_index BITS i) = i := by
  have hr : remap_index BITS i < 2 ^ 32 :=
    remap_index_lt BITS i 32 hB (by omega) le_rfl hi
  apply Nat.eq_of_testBit_eq
  intro k
  rw [remap_index_testBit BITS _ hB hr k]
  by_cases h1 : k < BITS
  · rw [if_pos h1, remap_index_testBit BITS i hB hi (k + BITS),
      if_neg (by omega), if_pos (by omega)]
    congr 1
    omega
  · by_cases h2 : k < 2 * BITS
    · rw [if_neg h1, if_pos h2, remap_index_testBit BITS i hB hi (k - BITS),
        if_pos (by omega)]
      congr 1
      omega
    · rw [if_neg h1, if_neg h2, remap_index_testBit BITS i hB hi k,
        if_neg h1, if_neg h2]

/-- C8: remap_index with shuffle width BITS exchanges the low BITS bits of
a 32-bit index with the next BITS bits and leaves the higher bits
unchanged; consequently it is an involution on 32-bit values and a
bijection on the interval below any power of two N = 2^e with
2*BITS <= e <= 32 (the range in which GetIndexShuffleBits selects a
nonzero shuffle width). -/
theorem remap_index_spec (BITS : Nat) (hB : BITS ≤ 16) :
    (∀ i, i < 2 ^ 32 → ∀ k,
      (remap_index BITS i).testBit k =
        if k < BITS then i.testBit (k + BITS)
        else if k < 2 * BITS then i.testBit (k - BITS)
        else i.testBit k) ∧
    (∀ i, i < 2 ^ 32 → remap_index BITS (remap_index BITS i) = i) ∧
    (∀ e, 2 * BITS ≤ e → e ≤ 32 →
      Set.BijOn (remap_index BITS) (Set.Iio (2 ^ e)) (Set.Iio (2 ^ e))) := by
  refine ⟨fun i hi k => remap_index_testBit BITS i hB hi k,
    fun i hi => remap_index_involutive BITS i hB hi, fun e h2B he => ⟨?_, ?_, ?_⟩⟩
  · intro i hi
    exact remap_index_lt BITS i e hB h2B he hi
  · intro a ha b hb hab
    have ha32 : a < 2 ^ 32 := lt_of_lt_of_le ha (Nat.pow_le_pow_right (by norm_num) he)
    have hb32 : b < 2 ^ 32 := lt_of_lt_of_le hb (Nat.pow_le_pow_right (by norm_num) he)
    calc a = remap_index BITS (remap_index BITS a) :=
          (remap_index_involutive BITS a hB ha32).symm
      _ = remap_index BITS (remap_index BITS b) := by rw [hab]
      _ = b := remap_index_involutive BITS b hB hb32
  · intro y hy
    have hy32 : y < 2 ^ 32 := lt_of_lt_of_le hy (Nat.pow_le_pow_right (by norm_num) he)
    exact ⟨remap_index BITS y, remap_index_lt BITS y e hB h2B he hy,
      remap_index_involutive BITS y hB hy32⟩

/-- Witness for remap_index_spec at the concrete shuffle width 2 (the
width used by a queue of 4 elements per cache line). -/
theorem remap_index_spec_witness :
    2 ≤ 16 ∧
    ((∀ i, i < 2 ^ 32 → ∀ k,
      (remap_index 2 i).testBit k =
        if k < 2 then i.testBit (k + 2)
        else if k < 2 * 2 then i.testBit (k - 2)
        else i.testBit k) ∧
    (∀ i, i < 2 ^ 32 → remap_index 2 (remap_index 2 i) = i) ∧
    (∀ e, 2 * 2 ≤ e → e ≤ 32 →
      Set.BijOn (remap_index 2) (Set.Iio (2 ^ e)) (Set.Iio (2 ^ e)))) :=
  ⟨by norm_num, remap_index_spec 2 (by norm_num)⟩

end AtomicQueueModel

namespace AtomicQueueModel

theorem toInt32_of_lt {d : Nat} (h : d < 2 ^ 31) : toInt32 d = (d : Int) := by
  rw [toInt32, if_pos h]

theorem reachTry_bounds {N : Nat} (hN : N < 2 ^ 31) :
    ∀ {s : Nat × Nat}, ReachTry N s → s.1 < U32 ∧ s.2 < U32 ∧ usub32 s.1 s.2 ≤ N := by
  intro s hr
  induction hr with
  | start =>
    refine ⟨by norm_num [U32], by norm_num [U32], ?_⟩
    simp [usub32, U32]
  | push hr hok ih =>
    rename_i h0 t0
    obtain ⟨hh, ht, hd⟩ := ih
    dsimp only at hh ht hd ⊢
    have hd31 : usub32 h0 t0 < 2 ^ 31 := by omega
    rw [tryPushOk, toInt32_of_lt hd31] at hok
    have hdN : usub32 h0 t0 < N := by exact_mod_cast hok
    refine ⟨Nat.mod_lt _ (by norm_num [U32]), ht, ?_⟩
    simp only [usub32, U32] at *
    omega
  | pop hr hok ih =>
    rename_i h0 t0
    obtain ⟨hh, ht, hd⟩ := ih
    dsimp only at hh ht hd ⊢
    have hd31 : usub32 h0 t0 < 2 ^ 31 := by omega
    rw [tryPopOk, toInt32_of_lt hd31] at hok
    have hd0 : 0 < usub32 h0 t0 := by exact_mod_cast hok
    refine ⟨hh, Nat.mod_lt _ (by norm_num [U32]), ?_⟩
    simp only [usub32, U32] at *
    omega

/-- C1 (amended): in every state reachable using only the non-blocking
operations try_push and try_pop, the signed 32-bit difference head - tail
stays within [0, N] and was_size() is at most N.  The blocking push and
pop reserve counter slots unconditionally and can leave this window; see
queue_blocking_breaks_invariant. -/
theorem queue_try_counter_invariant (N h t : Nat) (hN : N < 2 ^ 31)
    (hr : ReachTry N (h, t)) :
    0 ≤ toInt32 (usub32 h t) ∧ toInt32 (usub32 h t) ≤ (N : Int) ∧ was_size h t ≤ N := by
  obtain ⟨hh, ht, hd⟩ := reachTry_bounds hN hr
  dsimp only at hh ht hd
  have hd31 : usub32 h t < 2 ^ 31 := by omega
  rw [was_size, toInt32_of_lt hd31]
  refine ⟨by positivity, by exact_mod_cast hd, ?_⟩
  rw [max_eq_left (by positivity : (0 : Int) ≤ (usub32 h t : Int)), Int.toNat_natCast]
  exact hd

/-- Witness for queue_try_counter_invariant: a queue of size 2 after one
successful try_push. -/
theorem queue_try_counter_invariant_witness :
    (2 : Nat) < 2 ^ 31 ∧ ReachTry 2 (1, 0) ∧
    (0 ≤ toInt32 (usub32 1 0) ∧ toInt32 (usub32 1 0) ≤ (2 : Int) ∧ was_size 1 0 ≤ 2) := by
  have h1 : ReachTry 2 (1, 0) := by
    have h0 : ReachTry 2 ((0 + 1) % U32, 0) :=
      ReachTry.push ReachTry.start (by norm_num [tryPushOk, usub32, toInt32, U32])
    norm_num [U32] at h0
    exact h0
  exact ⟨by norm_num, h1, queue_try_counter_invariant 2 1 0 (by norm_num) h1⟩

/-- C1 counterexample: with the blocking push allowed (it reserves its
slot with head_.fetch_add(1) before waiting), the state head = 3, tail =
0 of a queue of size 2 is reachable by three pushes, and there
was_size() = 3 exceeds the capacity, refuting the claimed invariant
0 <= head - tail <= N over sequences that include push and pop. -/
theorem queue_blocking_breaks_invariant :
    ReachAny 2 (3, 0) ∧ was_size 3 0 = 3 ∧ ¬ was_size 3 0 ≤ 2 := by
  have e1 : (0 + 1) % U32 = 1 := by norm_num [U32]
  have e2 : (1 + 1) % U32 = 2 := by norm_num [U32]
  have e3 : (2 + 1) % U32 = 3 := by norm_num [U32]
  have h3 : ReachAny 2 (3, 0) := by
    have s1 := ReachAny.push (ReachAny.push (ReachAny.push (ReachAny.start (N := 2))))
    rw [e1, e2, e3] at s1
    exact s1
  have hsz : was_size 3 0 = 3 := by decide
  exact ⟨h3, hsz, by omega⟩

end AtomicQueueModel

namespace WaitFreeCounterModel

theorem and_zero_flag_eq_zero {x : Nat} (hx : x < U32) :
    x &&& zero_flag = 0 ↔ x < 2 ^ 31 := by
  have hx32 : x < 2 ^ 32 := by simp only [U32] at hx; omega
  rw [zero_flag, Nat.and_two_pow x 31]
  constructor
  · intro h0
    have hbit : x.testBit 31 = false := by
      cases hbit : x.testBit 31
      · rfl
      · rw [hbit] at h0
        norm_num at h0
    apply Nat.lt_pow_two_of_testBit
    intro j hj
    rcases Nat.eq_or_lt_of_le hj with rfl | hj2
    · exact hbit
    · exact Nat.testBit_lt_two_pow
        (lt_of_lt_of_le hx32 (Nat.pow_le_pow_right (by norm_num) hj2))
  · intro hlt
    rw [Nat.testBit_lt_two_pow hlt]
    rfl

theorem wfcIncRun_dead {s : Nat} (hs : s < U32) (hflag : ¬ s &&& zero_flag = 0)
    (ns : List Nat) (hbound : s + ns.sum < U32) :
    (wfcIncRun s ns).2.all (fun r => r = false) ∧
    ¬ (wfcIncRun s ns).1 &&& zero_flag = 0 ∧
    (wfcIncRun s ns).1 < U32 ∧
    (wfcLoad (wfcIncRun s ns).1).1 = 0 := by
  induction ns generalizing s with
  | nil =>
    have hs31 : 2 ^ 31 ≤ s := by
      rcases Nat.lt_or_ge s (2 ^ 31) with h | h
      · exact absurd ((and_zero_flag_eq_zero hs).mpr h) hflag
      · exact h
    simp only [wfcIncRun]
    refine ⟨by simp, hflag, hs, ?_⟩
    rw [wfcLoad, if_neg (by omega)]
    simp [hflag]
  | cons n ns ih =>
    have hs31 : 2 ^ 31 ≤ s := by
      rcases Nat.lt_or_ge s (2 ^ 31) with h | h
      · exact absurd ((and_zero_flag_eq_zero hs).mpr h) hflag
      · exact h
    have hsum : s + n + ns.sum < U32 := by
      simp only [List.sum_cons] at hbound
      omega
    have hstep : (wfcIncrement s n).2 = s + n := by
      simp only [wfcIncrement]
      exact Nat.mod_eq_of_lt (by omega)
    have hflag2 : ¬ (s + n) &&& zero_flag = 0 := by
      rw [and_zero_flag_eq_zero (by omega)]
      simp only [U32] at hsum
      omega
    have hres : (wfcIncrement s n).1 = false := by
      simp only [wfcIncrement, beq_eq_false_iff_ne, ne_eq]
      exact hflag
    obtain ⟨ha, hf, hlt, hld⟩ := ih (s := s + n) (by omega) hflag2 (by omega)
    simp only [wfcIncRun, hstep, hres]
    exact ⟨by simp only [List.all_cons, ha, Bool.and_true]; rfl, hf, hlt, hld⟩

/-- C2: increment(n) succeeds exactly when the previous raw value had the
zero flag clear; and once the zero flag is set, for any further sequence
of increments whose total does not overflow the 32-bit word, every
increment returns failure, the zero flag stays set (the accumulated low
bits are never interpreted as a live count), and load() returns 0 after
each of them. -/
theorem wfc_increment_never_revives (s : Nat) (hs : s < U32) :
    (∀ n, (wfcIncrement s n).1 = true ↔ s &&& zero_flag = 0) ∧
    (¬ s &&& zero_flag = 0 → ∀ ns : List Nat, s + ns.sum < U32 →
      (wfcIncRun s ns).2.all (fun r => r = false) ∧
      ¬ (wfcIncRun s ns).1 &&& zero_flag = 0 ∧
      (wfcLoad (wfcIncRun s ns).1).1 = 0) := by
  constructor
  · intro n
    simp [wfcIncrement]
  · intro hflag ns hbound
    obtain ⟨ha, hf, _, hld⟩ := wfcIncRun_dead hs hflag ns hbound
    exact ⟨ha, hf, hld⟩

/-- Witness for wfc_increment_never_revives: the counter word 2^31 (zero
flag just set by a zeroing decrement) followed by failed increments. -/
theorem wfc_increment_never_revives_witness :
    (2147483648 : Nat) < U32 ∧
    ((∀ n, (wfcIncrement 2147483648 n).1 = true ↔ 2147483648 &&& zero_flag = 0) ∧
    (¬ 2147483648 &&& zero_flag = 0 → ∀ ns : List Nat, 2147483648 + ns.sum < U32 →
      (wfcIncRun 2147483648 ns).2.all (fun r => r = false) ∧
      ¬ (wfcIncRun 2147483648 ns).1 &&& zero_flag = 0 ∧
      (wfcLoad (wfcIncRun 2147483648 ns).1).1 = 0)) :=
  ⟨by norm_num [U32], wfc_increment_never_revives 2147483648 (by norm_num [U32])⟩

end WaitFreeCounterModel

namespace WaitFreeCounterModel

theorem wfcDecrement_eq_iff {s n : Nat} (hn : n < U32) :
    ((wfcDecrement s n).1 = true ↔ s = n) ∧
    (s = n → (wfcDecrement s n).2 = zero_flag) := by
  by_cases h : s = n
  · subst h
    have h0 : (s + (U32 - s)) % U32 = 0 := by
      have : s + (U32 - s) = U32 := by omega
      rw [this]
      simp [U32]
    constructor
    · rw [wfcDecrement]
      simp [h0]
    · intro _
      rw [wfcDecrement]
      simp [h0]
  · constructor
    · rw [wfcDecrement]
      simp [h]
    · intro hc
      exact absurd hc h

theorem wfcValid_trueDecCount : ∀ {p : WfcPhase} {ops : List WfcOp},
    WfcValid p ops →
    trueDecCount (phaseWord p) ops ≤ 1 ∧
    (∀ e, p = WfcPhase.dead e → trueDecCount (phaseWord p) ops = 0) := by
  intro p ops hv
  induction hv with
  | nil p =>
    exact ⟨by simp [trueDecCount], fun e _ => by simp [trueDecCount]⟩
  | live_inc hc hb hv ih =>
    rename_i c n ops
    have hstep : (wfcIncrement (phaseWord (WfcPhase.live c)) n).2 = phaseWord (WfcPhase.live (c + n)) := by
      simp only [wfcIncrement, phaseWord]
      exact Nat.mod_eq_of_lt (by simp only [U32]; omega)
    refine ⟨?_, fun e he => by cases he⟩
    simpa only [trueDecCount, hstep] using ih.1
  | live_dec hn hnc hc hv ih =>
    rename_i c n ops
    have hne : c ≠ n := by omega
    have hstep : (wfcDecrement (phaseWord (WfcPhase.live c)) n).2 = phaseWord (WfcPhase.live (c - n)) := by
      simp only [wfcDecrement, phaseWord, if_neg hne]
      have : c + (U32 - n) = (c - n) + U32 := by simp only [U32]; omega
      rw [this, Nat.add_mod_right]
      exact Nat.mod_eq_of_lt (by simp only [U32]; omega)
    have hres : (wfcDecrement (phaseWord (WfcPhase.live c)) n).1 = false := by
      simp only [wfcDecrement, phaseWord, if_neg hne]
    refine ⟨?_, fun e he => by cases he⟩
    simp only [trueDecCount, hstep, hres, Bool.toNat_false, Nat.zero_add]
    exact ih.1
  | live_dec_zero hc hcb hv ih =>
    rename_i c ops
    have hc32 : c < U32 := by simp only [U32]; omega
    have hres : (wfcDecrement (phaseWord (WfcPhase.live c)) c).1 = true :=
      ((wfcDecrement_eq_iff hc32).1).mpr rfl
    have hstep : (wfcDecrement (phaseWord (WfcPhase.live c)) c).2 = zero_flag :=
      (wfcDecrement_eq_iff hc32).2 rfl
    have hzero : zero_flag = phaseWord (WfcPhase.dead 0) := by simp [phaseWord]
    refine ⟨?_, fun e he => by cases he⟩
    simp only [trueDecCount, hstep, hres, Bool.toNat_true, hzero]
    have h0 := ih.2 0 rfl
    omega
  | dead_inc hb hv ih =>
    rename_i e n ops
    have hstep : (wfcIncrement (phaseWord (WfcPhase.dead e)) n).2 = phaseWord (WfcPhase.dead (e + n)) := by
      simp only [wfcIncrement, phaseWord, zero_flag]
      have : 2 ^ 31 + e + n < U32 := by simp only [U32]; omega
      rw [Nat.mod_eq_of_lt (by omega)]
      omega
    have h0 := ih.2 (e + n) rfl
    refine ⟨?_, fun e2 he2 => ?_⟩
    · simp only [trueDecCount, hstep]
      omega
    · simp only [trueDecCount, hstep]
      omega

/-- C3 (amended): a decrement returns true precisely when the value it
subtracts equals the previous raw counter word (in which case the counter
is moved to the zero-flag state); and in any valid reference-counting
usage - every decrement happens while the counter is live with count at
least the argument, counts stay below 2^30, and no decrement happens
after the counter reached zero - at most one decrement over the
counter's lifetime returns true, namely the one whose subtraction takes
the count to zero, and none returns true once the counter is dead.
Unrestricted sequences can make decrement return true more than once;
see wfc_decrement_true_twice. -/
theorem wfc_decrement_unique :
    (∀ s n : Nat, n < U32 →
      (((wfcDecrement s n).1 = true ↔ s = n) ∧
        (s = n → (wfcDecrement s n).2 = zero_flag))) ∧
    (∀ (p : WfcPhase) (ops : List WfcOp), WfcValid p ops →
      trueDecCount (phaseWord p) ops ≤ 1 ∧
      (∀ e, p = WfcPhase.dead e → trueDecCount (phaseWord p) ops = 0)) :=
  ⟨fun _ _ hn => wfcDecrement_eq_iff hn, fun _ _ hv => wfcValid_trueDecCount hv⟩

/-- Witness for wfc_decrement_unique: the canonical lifetime of a counter
constructed at 1 and released once; the single decrement returns true. -/
theorem wfc_decrement_unique_witness :
    ((5 : Nat) < U32 ∧ WfcValid (WfcPhase.live 1) [WfcOp.dec 1]) ∧
    (((wfcDecrement 5 5).1 = true ↔ (5 : Nat) = 5) ∧
      ((5 : Nat) = 5 → (wfcDecrement 5 5).2 = zero_flag)) ∧
    trueDecCount (phaseWord (WfcPhase.live 1)) [WfcOp.dec 1] ≤ 1 := by
  have hv : WfcValid (WfcPhase.live 1) [WfcOp.dec 1] :=
    WfcValid.live_dec_zero (by norm_num) (by norm_num) (WfcValid.nil _)
  exact ⟨⟨by norm_num [U32], hv⟩,
    (wfc_decrement_unique.1 5 5 (by norm_num [U32])),
    (wfc_decrement_unique.2 (WfcPhase.live 1) [WfcOp.dec 1] hv).1⟩

/-- C3 counterexample: from the default-constructed counter (raw value 1)
the call sequence decrement 1; decrement (2^30 - 1); decrement (2^30 - 1);
decrement 2 - all arguments within the documented maximum 2^30 - 1 -
makes decrement return true twice, refuting the claim for arbitrary
operation sequences. -/
theorem wfc_decrement_true_twice :
    decResults 1 [WfcOp.dec 1, WfcOp.dec 1073741823, WfcOp.dec 1073741823, WfcOp.dec 2]
      = [true, false, false, true] ∧
    (decResults 1 [WfcOp.dec 1, WfcOp.dec 1073741823, WfcOp.dec 1073741823,
      WfcOp.dec 2]).count true = 2 := by
  constructor
  · decide
  · decide

end WaitFreeCounterModel

namespace AtomicSharedPtrModel

open WaitFreeCounterModel

theorem setBlock_heap_self (st : AspState) (b : Nat) (blk : Block) :
    (setBlock st b blk).heap b = blk := by
  simp [setBlock]

theorem setBlock_heap_ne {b b2 : Nat} (st : AspState) (h : b2 ≠ b) (blk : Block) :
    (setBlock st b blk).heap b2 = st.heap b2 := by
  simp [setBlock, h]

theorem decrement_strong_count_slot (b : Nat) (st : AspState) :
    (decrement_strong_count b st).slot = st.slot := by
  rw [decrement_strong_count]
  dsimp only
  split
  · split
    · rfl
    · rfl
  · rfl

theorem decrement_strong_count_heap_ne {b b2 : Nat} (h : b2 ≠ b) (st : AspState) :
    (decrement_strong_count b st).heap b2 = st.heap b2 := by
  rw [decrement_strong_count]
  dsimp only
  split
  · split
    · simp [setBlock, h]
    · simp [setBlock, h]
  · simp [setBlock, h]

theorem and_flag_zero_of_lt {c : Nat} (hc : c < 2 ^ 30) : c &&& zero_flag = 0 := by
  rw [and_zero_flag_eq_zero (x := c) (by simp only [U32]; omega)]
  omega

theorem wfcDecrement_one_live {s : Nat} (h2 : 2 ≤ s) (hlt : s < 2 ^ 30) :
    (wfcDecrement s 1).1 = false ∧ (wfcDecrement s 1).2 = s - 1 := by
  have hne : s ≠ 1 := by omega
  have h1 : (s + (U32 - 1)) % U32 = s - 1 := by simp only [U32]; omega
  rw [wfcDecrement]
  simp only [if_neg hne, h1]
  simp

theorem decrement_strong_count_heap_self_live (st : AspState) {b : Nat}
    (h2 : 2 ≤ (st.heap b).strong) (hlt : (st.heap b).strong < 2 ^ 30) :
    (decrement_strong_count b st).heap b
      = { st.heap b with strong := (st.heap b).strong - 1 } := by
  obtain ⟨hd1, hd2⟩ := wfcDecrement_one_live h2 hlt
  rw [decrement_strong_count]
  simp only [hd1, hd2, Bool.false_eq_true, if_false]
  exact setBlock_heap_self ..

theorem aspStore_of_slot_none (st : AspState) (x : Handle) (h : st.slot = none) :
    aspStore st x = { st with slot := x.map Prod.snd } := by
  simp only [aspStore, h]

theorem aspStore_of_slot_some (st : AspState) (x : Handle) {b : Nat} (h : st.slot = some b) :
    aspStore st x = decrement_strong_count b { st with slot := x.map Prod.snd } := by
  simp only [aspStore, h]

theorem aspLoad_of_slot_none {st : AspState} (h : st.slot = none) :
    aspLoad st = some ((none : Handle), st) := by
  simp only [aspLoad, h]

theorem aspLoad_of_slot_some_live {st : AspState} {b : Nat} (h : st.slot = some b)
    (hlt : (st.heap b).strong < 2 ^ 30) :
    aspLoad st = some ((some ((st.heap b).payload, b) : Handle),
      setBlock st b { st.heap b with strong := ((st.heap b).strong + 1) % U32 }) := by
  have hflag : ((st.heap b).strong &&& zero_flag == 0) = true := by
    simp [and_flag_zero_of_lt hlt]
  simp only [aspLoad, h, wfcIncrement, hflag, if_pos]

theorem aspLoad_round_aux (st1 : AspState) (p cb : Nat) (hslot : st1.slot = some cb)
    (hpay : (st1.heap cb).payload = p) (hlt : (st1.heap cb).strong < 2 ^ 30) :
    ∃ st2, aspLoad st1 = some ((some (p, cb) : Handle), st2) := by
  refine ⟨setBlock st1 cb { st1.heap cb with strong := ((st1.heap cb).strong + 1) % U32 }, ?_⟩
  rw [aspLoad_of_slot_some_live hslot hlt, hpay]

/-- C7: in a single-threaded execution, immediately after store(x) a
load() terminates on its first protect / increment-if-nonzero attempt
and returns a handle with the same managed-object pointer and the same
control block as x (the empty handle when x was empty).  The handle
hypotheses: the pointer of x matches its block payload, the block is
live, and x holds its own strong reference beside the one the slot may
already hold on the same block. -/
theorem asp_store_load_round_trip (st : AspState) (x : Handle) (hx : HandleOk st x) :
    ∃ st2, aspLoad (aspStore st x) = some (x, st2) := by
  match x with
  | none =>
    have hslot : (aspStore st (none : Handle)).slot = none := by
      cases hs : st.slot with
      | none =>
        rw [aspStore_of_slot_none st none hs]
        rfl
      | some b =>
        rw [aspStore_of_slot_some st none hs, decrement_strong_count_slot]
        rfl
    exact ⟨_, aspLoad_of_slot_none hslot⟩
  | some pb =>
    obtain ⟨p, cb⟩ := pb
    obtain ⟨hpay, hlt, hown⟩ := hx
    dsimp only at hpay hlt hown
    cases hs : st.slot with
    | none =>
      rw [aspStore_of_slot_none st (some (p, cb)) hs]
      exact aspLoad_round_aux _ p cb rfl hpay hlt
    | some b =>
      rw [aspStore_of_slot_some st (some (p, cb)) hs]
      by_cases hbb : b = cb
      · subst hbb
        rw [if_pos hs] at hown
        apply aspLoad_round_aux
        · rw [decrement_strong_count_slot]
          rfl
        · rw [decrement_strong_count_heap_self_live
            { st with slot := Option.map Prod.snd (some (p, b)) } hown hlt]
          exact hpay
        · rw [decrement_strong_count_heap_self_live
            { st with slot := Option.map Prod.snd (some (p, b)) } hown hlt]
          dsimp only
          omega
      · have hne : cb ≠ b := fun h => hbb h.symm
        rw [hs] at hown
        rw [if_neg (by simp only [Option.some.injEq]; exact hbb)] at hown
        apply aspLoad_round_aux
        · rw [decrement_strong_count_slot]
          rfl
        · rw [decrement_strong_count_heap_ne hne]
          exact hpay
        · rw [decrement_strong_count_heap_ne hne]
          exact hlt

/-- Witness for asp_store_load_round_trip: an empty slot, a heap whose
block 0 manages payload address 5 with one strong reference, and the
handle (5, 0). -/
theorem asp_store_load_round_trip_witness :
    HandleOk
      { slot := none, heap := fun _ => { strong := 1, weak := 1, payload := 5, disposed := false },
        retired := [] } (some (5, 0)) ∧
    ∃ st2,
      aspLoad (aspStore
        { slot := none, heap := fun _ => { strong := 1, weak := 1, payload := 5, disposed := false },
          retired := [] } (some (5, 0))) = some ((some (5, 0) : Handle), st2) := by
  have hok : HandleOk
      { slot := none, heap := fun _ => { strong := 1, weak := 1, payload := 5, disposed := false },
        retired := [] } (some (5, 0)) := by
    refine ⟨rfl, by norm_num, ?_⟩
    rw [if_neg (by simp)]
  exact ⟨hok, asp_store_load_round_trip _ _ hok⟩

end AtomicSharedPtrModel

namespace StealingQueueModel

/-- C10 is right as a specification and wrong in the code: pop() on a
fresh (empty) deque with bottom = top = 0 decrements bottom through zero;
since bottom is a size_t the decrement wraps to 2^64 - 1, the test
t <= b then succeeds, and pop returns an engaged optional holding the
default-initialized slot value while leaving bottom = 2^64 - 1 instead
of restoring it.  This theorem evaluates the model at that failing
input (capacity 2, element type Nat whose default slot value is 0). -/
theorem stealing_pop_empty_fresh_bug :
    (sqInit Nat 2).bottom = 0 ∧ (sqInit Nat 2).top = 0 ∧
    (sqPop (sqInit Nat 2)).1 = some 0 ∧
    (sqPop (sqInit Nat 2)).2.bottom = U64 - 1 ∧
    (sqPop (sqInit Nat 2)).2.top = 0 := by
  refine ⟨rfl, rfl, ?_, ?_, ?_⟩
  · rw [sqPop]
    norm_num [sqInit, U64, sqArrayPop]
  · rw [sqPop]
    norm_num [sqInit, U64]
  · rw [sqPop]
    norm_num [sqInit, U64]

end StealingQueueModel

namespace StealingQueueModel

theorem sqArrayPush_C {T : Type} (a : SqArray T) (i : Nat) (o : T) :
    (sqArrayPush a i o).C = a.C := rfl

theorem sqArrayPop_push_self {T : Type} (a : SqArray T) (i : Nat) (o : T) :
    sqArrayPop (sqArrayPush a i o) i = o := by
  simp [sqArrayPop, sqArrayPush]

theorem sqArrayPop_push_ne {T : Type} {a : SqArray T} {i j : Nat}
    (h : j &&& (a.C - 1) ≠ i &&& (a.C - 1)) (o : T) :
    sqArrayPop (sqArrayPush a i o) j = sqArrayPop a j := by
  simp [sqArrayPop, sqArrayPush, h]

theorem and_mask_ne_of_window {k i j : Nat} (hij : i < j) (hd : j - i < 2 ^ k) :
    i &&& (2 ^ k - 1) ≠ j &&& (2 ^ k - 1) := by
  rw [Nat.and_pow_two_sub_one_eq_mod, Nat.and_pow_two_sub_one_eq_mod]
  intro h
  have hdvd : 2 ^ k ∣ j - i := (Nat.modEq_iff_dvd' (le_of_lt hij)).mp h
  have hpos : 0 < j - i := by omega
  have := Nat.le_of_dvd hpos hdvd
  omega

theorem bsub64 {b t : Nat} (ht : t ≤ b) (hb : b < U64) :
    (b + (U64 - t % U64)) % U64 = b - t := by
  have h1 : t % U64 = t := Nat.mod_eq_of_lt (by omega)
  rw [h1]
  have h2 : b + (U64 - t) = (b - t) + U64 := by omega
  rw [h2, Nat.add_mod_right]
  exact Nat.mod_eq_of_lt (by omega)

theorem resize_fold_C {T : Type} [Inhabited T] (a : SqArray T) (t : Nat) (n : Nat) :
    ((List.range n).foldl
      (fun acc k => sqArrayPush acc ((t + k) % U64) (sqArrayPop a ((t + k) % U64)))
      { C := 2 * a.C, S := fun _ => default }).C = 2 * a.C := by
  induction n with
  | zero => rfl
  | succ n ih =>
    rw [List.range_succ, List.foldl_append]
    simp only [List.foldl_cons, List.foldl_nil, sqArrayPush_C]
    exact ih

theorem resize_fold_pop {T : Type} [Inhabited T] (a : SqArray T) (t : Nat) {k : Nat}
    (hC : a.C = 2 ^ k) (n : Nat) (hn : n ≤ a.C) (htn : t + n < U64) :
    ∀ k0, k0 < n →
      sqArrayPop ((List.range n).foldl
        (fun acc j => sqArrayPush acc ((t + j) % U64) (sqArrayPop a ((t + j) % U64)))
        { C := 2 * a.C, S := fun _ => default }) (t + k0)
      = sqArrayPop a (t + k0) := by
  have hpos : 0 < 2 ^ k := Nat.two_pow_pos k
  induction n with
  | zero => intro k0 h; omega
  | succ n ih =>
    intro k0 hk0
    rw [List.range_succ, List.foldl_append]
    simp only [List.foldl_cons, List.foldl_nil]
    have hmod : (t + n) % U64 = t + n := Nat.mod_eq_of_lt (by omega)
    rw [hmod]
    by_cases hk : k0 = n
    · subst hk
      exact sqArrayPop_push_self _ _ _
    · have hCf : ((List.range n).foldl
          (fun acc j => sqArrayPush acc ((t + j) % U64) (sqArrayPop a ((t + j) % U64)))
          { C := 2 * a.C, S := fun _ => default }).C = 2 * a.C := resize_fold_C a t n
      have h2C : 2 * a.C = 2 ^ (k + 1) := by rw [hC]; ring
      have hne : (t + k0) &&& (((List.range n).foldl
          (fun acc j => sqArrayPush acc ((t + j) % U64) (sqArrayPop a ((t + j) % U64)))
          { C := 2 * a.C, S := fun _ => default }).C - 1)
          ≠ (t + n) &&& (((List.range n).foldl
          (fun acc j => sqArrayPush acc ((t + j) % U64) (sqArrayPop a ((t + j) % U64)))
          { C := 2 * a.C, S := fun _ => default }).C - 1) := by
        rw [hCf, h2C]
        have hwin : (t + n) - (t + k0) < 2 ^ (k + 1) := by
          have he : 2 ^ (k + 1) = 2 * 2 ^ k := by ring
          rw [hC] at hn
          omega
        exact and_mask_ne_of_window (by omega) hwin
      rw [sqArrayPop_push_ne hne]
      exact ih (by omega) (by omega) k0 (by omega)

theorem sqArrayResize_spec {T : Type} [Inhabited T] (a : SqArray T) {k : Nat}
    (hC : a.C = 2 ^ k) (b t : Nat) (ht : t ≤ b) (hb : b < U64) (hd : b - t ≤ a.C) :
    (sqArrayResize a b t).C = 2 * a.C ∧
    ∀ i, t ≤ i → i < b → sqArrayPop (sqArrayResize a b t) i = sqArrayPop a i := by
  rw [sqArrayResize, bsub64 ht hb]
  constructor
  · exact resize_fold_C a t (b - t)
  · intro i hi1 hi2
    have h3 : t + (i - t) = i := by omega
    rw [← h3]
    exact resize_fold_pop a t hC (b - t) hd (by omega) (i - t) (by omega)

/-- C5 (amended): owner push reads bottom, top and the buffer; it resizes
exactly when bottom - top exceeds capacity - 1 (that is bottom - top is
at least the capacity - not when it is capacity - 1 as the claim stated;
see stealing_push_no_resize_at_cap_minus_one).  In the full case the new
buffer has double capacity, the live entries at logical indices
top..bottom-1 keep their logical positions, and the old buffer is
appended to the garbage list; in both cases the item is then written at
logical index bottom (physical bottom mod capacity) and bottom + 1 is
published; top and the other live entries are untouched. -/
theorem stealing_push_spec {T : Type} [Inhabited T] (s : SqState T) (item : T) {k : Nat}
    (hC : s.arr.C = 2 ^ k) (ht : s.top ≤ s.bottom) (hb : s.bottom + 1 < U64)
    (hlen : s.bottom - s.top ≤ s.arr.C) :
    (sqPush s item).top = s.top ∧
    (sqPush s item).bottom = s.bottom + 1 ∧
    (∀ i, s.top ≤ i → i < s.bottom → sqArrayPop (sqPush s item).arr i = sqArrayPop s.arr i) ∧
    sqArrayPop (sqPush s item).arr s.bottom = item ∧
    (s.arr.C ≤ s.bottom - s.top →
      (sqPush s item).arr.C = 2 * s.arr.C ∧ (sqPush s item).garbage = s.garbage ++ [s.arr]) ∧
    (s.bottom - s.top < s.arr.C →
      (sqPush s item).arr.C = s.arr.C ∧ (sqPush s item).garbage = s.garbage) := by
  have hpos : 0 < 2 ^ k := Nat.two_pow_pos k
  have hbs := bsub64 ht (show s.bottom < U64 by omega)
  simp only [sqPush, hbs]
  by_cases hg : s.arr.C - 1 < s.bottom - s.top
  · simp only [if_pos hg]
    obtain ⟨hrC, hrpop⟩ :=
      sqArrayResize_spec s.arr hC s.bottom s.top ht (by omega) hlen
    have h2C : 2 * s.arr.C = 2 ^ (k + 1) := by rw [hC]; ring
    refine ⟨trivial, Nat.mod_eq_of_lt (by omega), ?_, sqArrayPop_push_self _ _ _, ?_, ?_⟩
    · intro i hi1 hi2
      have hne : i &&& ((sqArrayResize s.arr s.bottom s.top).C - 1)
          ≠ s.bottom &&& ((sqArrayResize s.arr s.bottom s.top).C - 1) := by
        rw [hrC, h2C]
        have hwin : s.bottom - i < 2 ^ (k + 1) := by
          have he : 2 ^ (k + 1) = 2 * 2 ^ k := by ring
          rw [hC] at hlen
          omega
        exact and_mask_ne_of_window hi2 hwin
      rw [sqArrayPop_push_ne hne]
      exact hrpop i hi1 hi2
    · intro _
      exact ⟨hrC, trivial⟩
    · intro hlt
      rw [hC] at hg hlt
      omega
  · simp only [if_neg hg]
    refine ⟨trivial, Nat.mod_eq_of_lt (by omega), ?_, sqArrayPop_push_self _ _ _, ?_, ?_⟩
    · intro i hi1 hi2
      have hne : i &&& (s.arr.C - 1) ≠ s.bottom &&& (s.arr.C - 1) := by
        rw [hC]
        have hwin : s.bottom - i < 2 ^ k := by
          rw [hC] at hg
          omega
        exact and_mask_ne_of_window hi2 hwin
      exact sqArrayPop_push_ne hne item
    · intro hge
      rw [hC] at hg hge
      omega
    · intro _
      constructor <;> trivial

/-- Witness for stealing_push_spec: a deque of capacity 2 holding one
element (top 0, bottom 1), into which 9 is pushed. -/
theorem stealing_push_spec_witness :
    ((sqPush (sqInit Nat 2) 7).arr.C = 2 ^ 1 ∧
      (sqPush (sqInit Nat 2) 7).top ≤ (sqPush (sqInit Nat 2) 7).bottom ∧
      (sqPush (sqInit Nat 2) 7).bottom + 1 < U64 ∧
      (sqPush (sqInit Nat 2) 7).bottom - (sqPush (sqInit Nat 2) 7).top
        ≤ (sqPush (sqInit Nat 2) 7).arr.C) ∧
    ((sqPush (sqPush (sqInit Nat 2) 7) 9).top = (sqPush (sqInit Nat 2) 7).top ∧
      (sqPush (sqPush (sqInit Nat 2) 7) 9).bottom = (sqPush (sqInit Nat 2) 7).bottom + 1 ∧
      (∀ i, (sqPush (sqInit Nat 2) 7).top ≤ i → i < (sqPush (sqInit Nat 2) 7).bottom →
        sqArrayPop (sqPush (sqPush (sqInit Nat 2) 7) 9).arr i
          = sqArrayPop (sqPush (sqInit Nat 2) 7).arr i) ∧
      sqArrayPop (sqPush (sqPush (sqInit Nat 2) 7) 9).arr (sqPush (sqInit Nat 2) 7).bottom = 9 ∧
      ((sqPush (sqInit Nat 2) 7).arr.C
          ≤ (sqPush (sqInit Nat 2) 7).bottom - (sqPush (sqInit Nat 2) 7).top →
        (sqPush (sqPush (sqInit Nat 2) 7) 9).arr.C = 2 * (sqPush (sqInit Nat 2) 7).arr.C ∧
        (sqPush (sqPush (sqInit Nat 2) 7) 9).garbage
          = (sqPush (sqInit Nat 2) 7).garbage ++ [(sqPush (sqInit Nat 2) 7).arr]) ∧
      ((sqPush (sqInit Nat 2) 7).bottom - (sqPush (sqInit Nat 2) 7).top
          < (sqPush (sqInit Nat 2) 7).arr.C →
        (sqPush (sqPush (sqInit Nat 2) 7) 9).arr.C = (sqPush (sqInit Nat 2) 7).arr.C ∧
        (sqPush (sqPush (sqInit Nat 2) 7) 9).garbage = (sqPush (sqInit Nat 2) 7).garbage)) := by
  refine ⟨⟨?_, ?_, ?_, ?_⟩,
    stealing_push_spec (k := 1) (sqPush (sqInit Nat 2) 7) 9 ?_ ?_ ?_ ?_⟩
  · decide
  · decide
  · decide
  · decide
  · decide
  · decide
  · decide
  · decide

/-- C5 counterexample: the claim triggers resizing when bottom - top is
at least capacity - 1; but on a capacity-2 deque holding one element
(bottom - top = 1 = capacity - 1), push does not resize: the capacity
stays 2 and the garbage list stays empty, because the code only resizes
when capacity - 1 < bottom - top. -/
theorem stealing_push_no_resize_at_cap_minus_one :
    (sqPush (sqInit Nat 2) 7).bottom - (sqPush (sqInit Nat 2) 7).top
        = (sqPush (sqInit Nat 2) 7).arr.C - 1 ∧
    (sqPush (sqPush (sqInit Nat 2) 7) 8).arr.C = 2 ∧
    (sqPush (sqPush (sqInit Nat 2) 7) 8).garbage.length = 0 := by
  refine ⟨?_, ?_, ?_⟩
  · decide
  · decide
  · decide

end StealingQueueModel

namespace AtomicHashmapModel

/-- C4 (amended): Set surfaces value-cell allocation failure as -ENOMEM,
but key-cell allocation failure is collapsed by Occupy into the same
null-bucket return as probe exhaustion, so both of those are surfaced as
-ENOENT (the claim said key-cell allocation failure yields -ENOMEM; see
hashmap_key_alloc_failure_not_enomem).  The two codes differ. -/
theorem hashmap_set_error_codes {K V : Type} [DecidableEq K] (hash : K → Nat)
    (st : HmState K V) (k : K) (v : V) :
    ((probeAux (hash k) (fun bk => bucketIsAvailable bk k) st.levels 0 st.buckets).isSome →
      ∀ va, (hmSet hash false va st k v).2 = -ENOENT) ∧
    (probeAux (hash k) (fun bk => bucketIsAvailable bk k) st.levels 0 st.buckets = none →
      ∀ ka va, (hmSet hash ka va st k v).2 = -ENOENT) ∧
    ((probeAux (hash k) (fun bk => bucketIsAvailable bk k) st.levels 0 st.buckets).isSome →
      (hmSet hash true false st k v).2 = -ENOMEM) ∧
    ((probeAux (hash k) (fun bk => bucketIsAvailable bk k) st.levels 0 st.buckets).isSome →
      (hmSet hash true true st k v).2 = 0) ∧
    -ENOENT ≠ -ENOMEM := by
  refine ⟨?_, ?_, ?_, ?_, by decide⟩
  · intro hp va
    cases hpe : probeAux (hash k) (fun bk => bucketIsAvailable bk k) st.levels 0 st.buckets with
    | none => rw [hpe] at hp; simp at hp
    | some idx => simp [hmSet, hmOccupy, hpe]
  · intro hpe ka va
    simp [hmSet, hmOccupy, hpe]
  · intro hp
    cases hpe : probeAux (hash k) (fun bk => bucketIsAvailable bk k) st.levels 0 st.buckets with
    | none => rw [hpe] at hp; simp at hp
    | some idx => simp [hmSet, hmOccupy, hpe]
  · intro hp
    cases hpe : probeAux (hash k) (fun bk => bucketIsAvailable bk k) st.levels 0 st.buckets with
    | none => rw [hpe] at hp; simp at hp
    | some idx => simp [hmSet, hmOccupy, hpe]

/-- Witness for hashmap_set_error_codes at a concrete 2-level map. -/
theorem hashmap_set_error_codes_witness :
    (probeAux ((fun n : Nat => n) 0)
        (fun bk => bucketIsAvailable bk (0 : Nat)) [2, 3] 0
        (List.replicate 5 ((none : Option Nat), (none : Option Nat)))).isSome = true ∧
    (hmSet (fun n : Nat => n) true false
        { levels := [2, 3], buckets := List.replicate 5 (none, none) } (0 : Nat) (0 : Nat)).2
      = -ENOMEM := by
  refine ⟨by decide, ?_⟩
  exact (hashmap_set_error_codes (fun n : Nat => n)
    { levels := [2, 3], buckets := List.replicate 5 (none, none) } 0 0).2.2.1 (by decide)

/-- C4 counterexample: on a concrete empty 2-level map an available
bucket exists (the probe succeeds), yet when the key-cell allocation
fails Set returns -ENOENT, the probe-exhaustion code, not -ENOMEM as the
claim states. -/
theorem hashmap_key_alloc_failure_not_enomem :
    (probeAux ((fun n : Nat => n) 0)
        (fun bk => bucketIsAvailable bk (0 : Nat)) [2, 3] 0
        (List.replicate 5 ((none : Option Nat), (none : Option Nat)))).isSome = true ∧
    (hmSet (fun n : Nat => n) false true
        { levels := [2, 3], buckets := List.replicate 5 (none, none) } (0 : Nat) (0 : Nat)).2
      = -ENOENT ∧
    (hmSet (fun n : Nat => n) false true
        { levels := [2, 3], buckets := List.replicate 5 (none, none) } (0 : Nat) (0 : Nat)).2
      ≠ -ENOMEM := by
  refine ⟨by decide, by decide, by decide⟩

end AtomicHashmapModel

namespace AtomicHashmapModel

theorem probeAux_bound {K V : Type} [DecidableEq K] (h : Nat)
    (test : Bucket K V → Bool) :
    ∀ (levels : List Nat) (base : Nat) (bs : List (Bucket K V)) {idx : Nat},
      (∀ c ∈ levels, 0 < c) →
      probeAux h test levels base bs = some idx →
      base ≤ idx ∧ idx < base + levels.sum := by
  intro levels
  induction levels with
  | nil =>
    intro base bs idx _ hp
    simp [probeAux] at hp
  | cons c rest ih =>
    intro base bs idx hpos hp
    rw [probeAux] at hp
    by_cases htest : test (bs.getD (base + h % c) ((none : Option K), (none : Option V))) = true
    · rw [if_pos htest] at hp
      have hc : 0 < c := hpos c (by simp)
      have : idx = base + h % c := by
        injection hp
        omega
      have hm : h % c < c := Nat.mod_lt _ hc
      simp only [List.sum_cons]
      omega
    · rw [if_neg htest] at hp
      have := ih (base + c) bs (fun c2 hc2 => hpos c2 (by simp [hc2])) hp
      simp only [List.sum_cons]
      omega

theorem probeAux_found {K V : Type} [DecidableEq K] (h : Nat)
    (test : Bucket K V → Bool) :
    ∀ (levels : List Nat) (base : Nat) (bs : List (Bucket K V)) {idx : Nat},
      probeAux h test levels base bs = some idx →
      test (bs.getD idx ((none : Option K), (none : Option V))) = true := by
  intro levels
  induction levels with
  | nil =>
    intro base bs idx hp
    simp [probeAux] at hp
  | cons c rest ih =>
    intro base bs idx hp
    rw [probeAux] at hp
    by_cases htest : test (bs.getD (base + h % c) ((none : Option K), (none : Option V))) = true
    · rw [if_pos htest] at hp
      have : idx = base + h % c := by
        injection hp
        omega
      rw [this]
      exact htest
    · rw [if_neg htest] at hp
      exact ih (base + c) bs hp

theorem probeAux_congr {K V : Type} [DecidableEq K] (h : Nat)
    (test1 test2 : Bucket K V → Bool) (bs1 bs2 : List (Bucket K V))
    (hpt : ∀ j, test1 (bs1.getD j ((none : Option K), (none : Option V)))
      = test2 (bs2.getD j ((none : Option K), (none : Option V)))) :
    ∀ (levels : List Nat) (base : Nat),
      probeAux h test1 levels base bs1 = probeAux h test2 levels base bs2 := by
  intro levels
  induction levels with
  | nil => intro base; rfl
  | cons c rest ih =>
    intro base
    rw [probeAux, probeAux, hpt (base + h % c), ih (base + c)]

theorem probeAux_none_of_no_match {K V : Type} [DecidableEq K] (h : Nat)
    (test : Bucket K V → Bool) (bs : List (Bucket K V))
    (hno : ∀ j, test (bs.getD j ((none : Option K), (none : Option V))) = false) :
    ∀ (levels : List Nat) (base : Nat), probeAux h test levels base bs = none := by
  intro levels
  induction levels with
  | nil => intro base; rfl
  | cons c rest ih =>
    intro base
    rw [probeAux, hno (base + h % c), ih (base + c)]
    simp

theorem probeAux_occ_after_avail {K V : Type} [DecidableEq K] (hsh : Nat) (k : K) :
    ∀ (levels : List Nat) (base : Nat) (bs bs2 : List (Bucket K V)) {idx : Nat},
      (∀ c ∈ levels, 0 < c) →
      probeAux hsh (fun bk => bucketIsAvailable bk k) levels base bs = some idx →
      (∀ j, j ≠ idx → (bs2.getD j ((none : Option K), (none : Option V))).1
        = (bs.getD j ((none : Option K), (none : Option V))).1) →
      (bs2.getD idx ((none : Option K), (none : Option V))).1 = some k →
      probeAux hsh (fun bk => bucketIsOccupied bk k) levels base bs2 = some idx := by
  intro levels
  induction levels with
  | nil =>
    intro base bs bs2 idx _ hp
    simp [probeAux] at hp
  | cons c rest ih =>
    intro base bs bs2 idx hpos hp hsame hat
    rw [probeAux] at hp ⊢
    by_cases htest : bucketIsAvailable (bs.getD (base + hsh % c)
        ((none : Option K), (none : Option V))) k = true
    · rw [if_pos htest] at hp
      have hidx : idx = base + hsh % c := by
        injection hp
        omega
      subst hidx
      have hocc : bucketIsOccupied (bs2.getD (base + hsh % c)
          ((none : Option K), (none : Option V))) k = true := by
        simp only [bucketIsOccupied]
        rw [hat]
        simp
      rw [if_pos hocc]
    · rw [if_neg htest] at hp
      have hb := probeAux_bound hsh (fun bk => bucketIsAvailable bk k) rest (base + c) bs
        (fun c2 hc2 => hpos c2 (by simp [hc2])) hp
      have hm : hsh % c < c := Nat.mod_lt _ (hpos c (by simp))
      have hne : base + hsh % c ≠ idx := by omega
      have hkey : (bs.getD (base + hsh % c) ((none : Option K), (none : Option V))).1
          ≠ some k := by
        intro hk
        refine htest ?_
        simp only [bucketIsAvailable]
        rw [hk]
        simp
      have hocc : bucketIsOccupied (bs2.getD (base + hsh % c)
          ((none : Option K), (none : Option V))) k = false := by
        simp only [bucketIsOccupied]
        rw [hsame _ hne]
        exact decide_eq_false hkey
      rw [if_neg (by rw [hocc]; simp)]
      exact ih (base + c) bs bs2 (fun c2 hc2 => hpos c2 (by simp [hc2])) hp hsame hat

end AtomicHashmapModel

namespace AtomicHashmapModel

theorem getD_set_self {α : Type} (l : List α) (i : Nat) (a d : α) (h : i < l.length) :
    (l.set i a).getD i d = a := by
  rw [List.getD_eq_getElem?_getD, List.getElem?_set_self h]
  rfl

theorem getD_set_ne {α : Type} (l : List α) {i j : Nat} (h : i ≠ j) (a d : α) :
    (l.set i a).getD j d = l.getD j d := by
  rw [List.getD_eq_getElem?_getD, List.getElem?_set_ne h, ← List.getD_eq_getElem?_getD]

theorem hmSet_success {K V : Type} [DecidableEq K] (hash : K → Nat) (st : HmState K V)
    (k : K) (v : V) (hwf : HmWF st) (h0 : (hmSet hash true true st k v).2 = 0) :
    ∃ idx,
      probeAux (hash k) (fun bk => bucketIsAvailable bk k) st.levels 0 st.buckets = some idx ∧
      idx < st.buckets.length ∧
      (hmSet hash true true st k v).1.levels = st.levels ∧
      (hmSet hash true true st k v).1.buckets = st.buckets.set idx (some k, some v) := by
  cases hpe : probeAux (hash k) (fun bk => bucketIsAvailable bk k) st.levels 0 st.buckets with
  | none =>
    exfalso
    simp [hmSet, hmOccupy, hpe, ENOENT] at h0
  | some idx =>
    have hb := probeAux_bound (hash k) (fun bk => bucketIsAvailable bk k) st.levels 0
      st.buckets hwf.1 hpe
    have hlt : idx < st.buckets.length := by
      rw [hwf.2]
      omega
    refine ⟨idx, rfl, hlt, ?_, ?_⟩
    · simp only [hmSet, hmOccupy, hpe, if_true]
    · simp only [hmSet, hmOccupy, hpe, if_true]
      have hkey : ((st.buckets.set idx
          (some k, (st.buckets.getD idx ((none : Option K), (none : Option V))).2)).getD idx
          ((none : Option K), (none : Option V))).1 = some k := by
        rw [getD_set_self _ _ _ _ hlt]
      simp only [hkey, List.set_set]

theorem hmGet_after_set {K V : Type} [DecidableEq K] (hash : K → Nat) (st : HmState K V)
    (k : K) (v : V) (hwf : HmWF st) (h0 : (hmSet hash true true st k v).2 = 0) :
    hmGet hash (hmSet hash true true st k v).1 k = some v := by
  obtain ⟨idx, hpe, hlt, hlev, hbk⟩ := hmSet_success hash st k v hwf h0
  have hlook : hmLookup hash (hmSet hash true true st k v).1 k = some idx := by
    rw [hmLookup, hlev, hbk]
    refine probeAux_occ_after_avail (hash k) k st.levels 0 st.buckets _ hwf.1 hpe ?_ ?_
    · intro j hj
      rw [getD_set_ne st.buckets (fun h => hj h.symm)]
    · rw [getD_set_self _ _ _ _ hlt]
  simp only [hmGet, hlook, hbk]
  rw [getD_set_self _ _ _ _ hlt]

end AtomicHashmapModel

namespace AtomicHashmapModel

theorem hmDelete_getD {K V : Type} [DecidableEq K] (st : HmState K V) (k : K) (j : Nat) :
    (hmDelete st k).1.buckets.getD j ((none : Option K), (none : Option V))
      = (if bucketIsOccupied (st.buckets.getD j ((none : Option K), (none : Option V))) k
          then ((none : Option K), (none : Option V))
          else st.buckets.getD j ((none : Option K), (none : Option V))) := by
  simp only [hmDelete]
  rw [List.getD_eq_getElem?_getD, List.getElem?_map,
    List.getD_eq_getElem?_getD st.buckets]
  cases hj : st.buckets[j]? with
  | none => simp [bucketIsOccupied]
  | some bk => simp

theorem hmApply_levels {K V : Type} [DecidableEq K] (hash : K → Nat) (st : HmState K V)
    (op : HmOp K V) : (hmApply hash st op).levels = st.levels := by
  cases op with
  | set k2 v2 =>
    cases hpe : probeAux (hash k2) (fun bk => bucketIsAvailable bk k2) st.levels 0 st.buckets with
    | none => simp [hmApply, hmSet, hmOccupy, hpe]
    | some idx => simp only [hmApply, hmSet, hmOccupy, hpe, if_true]
  | del k2 => simp [hmApply, hmDelete]

theorem hmApply_length {K V : Type} [DecidableEq K] (hash : K → Nat) (st : HmState K V)
    (op : HmOp K V) : (hmApply hash st op).buckets.length = st.buckets.length := by
  cases op with
  | set k2 v2 =>
    cases hpe : probeAux (hash k2) (fun bk => bucketIsAvailable bk k2) st.levels 0 st.buckets with
    | none => simp [hmApply, hmSet, hmOccupy, hpe]
    | some idx => simp only [hmApply, hmSet, hmOccupy, hpe, if_true, List.length_set]
  | del k2 => simp [hmApply, hmDelete]

theorem hmApply_wf {K V : Type} [DecidableEq K] (hash : K → Nat) (st : HmState K V)
    (op : HmOp K V) (hwf : HmWF st) : HmWF (hmApply hash st op) := by
  constructor
  · rw [hmApply_levels]
    exact hwf.1
  · rw [hmApply_length, hmApply_levels]
    exact hwf.2

theorem hmApply_avoid_frame {K V : Type} [DecidableEq K] (hash : K → Nat) (st : HmState K V)
    (k : K) (op : HmOp K V) (hop : hmOpAvoids k op) (hwf : HmWF st) :
    (∀ j, ((hmApply hash st op).buckets.getD j ((none : Option K), (none : Option V))).1
        = some k
      ↔ (st.buckets.getD j ((none : Option K), (none : Option V))).1 = some k) ∧
    (∀ j, (st.buckets.getD j ((none : Option K), (none : Option V))).1 = some k →
      (hmApply hash st op).buckets.getD j ((none : Option K), (none : Option V))
        = st.buckets.getD j ((none : Option K), (none : Option V))) := by
  cases op with
  | set k2 v2 =>
    have hk2 : k2 ≠ k := hop
    cases hpe : probeAux (hash k2) (fun bk => bucketIsAvailable bk k2) st.levels 0 st.buckets with
    | none =>
      have hst : (hmApply hash st (HmOp.set k2 v2)) = st := by
        simp [hmApply, hmSet, hmOccupy, hpe]
      rw [hst]
      exact ⟨fun j => Iff.rfl, fun j _ => rfl⟩
    | some idx =>
      have h0 : (hmSet hash true true st k2 v2).2 = 0 := by
        simp only [hmSet, hmOccupy, hpe, if_true]
      obtain ⟨idx2, hpe2, hlt2, hlev2, hbk2⟩ := hmSet_success hash st k2 v2 hwf h0
      have havail := probeAux_found (hash k2)
        (fun bk => bucketIsAvailable bk k2) st.levels 0 st.buckets hpe2
      have hold : (st.buckets.getD idx2 ((none : Option K), (none : Option V))).1 ≠ some k := by
        simp only [bucketIsAvailable, decide_eq_true_eq] at havail
        rcases havail with h | h
        · rw [h]; simp
        · rw [h]; simp [hk2]
      have happ : (hmApply hash st (HmOp.set k2 v2)).buckets
          = st.buckets.set idx2 (some k2, some v2) := hbk2
      constructor
      · intro j
        by_cases hj : idx2 = j
        · subst hj
          rw [happ, getD_set_self _ _ _ _ hlt2]
          constructor
          · intro h
            exact absurd h (by simp [hk2])
          · intro h
            exact absurd h hold
        · rw [happ, getD_set_ne st.buckets hj]
      · intro j hkey
        by_cases hj : idx2 = j
        · subst hj
          exact absurd hkey hold
        · rw [happ, getD_set_ne st.buckets hj]
  | del k2 =>
    have hk2 : k2 ≠ k := hop
    constructor
    · intro j
      have hd := hmDelete_getD st k2 j
      show (((hmDelete st k2).1.buckets.getD j ((none : Option K), (none : Option V))).1
          = some k) ↔ _
      rw [hd]
      by_cases hocc : bucketIsOccupied
          (st.buckets.getD j ((none : Option K), (none : Option V))) k2 = true
      · rw [if_pos hocc]
        simp only [bucketIsOccupied, decide_eq_true_eq] at hocc
        rw [hocc]
        simp [hk2]
      · rw [if_neg hocc]
    · intro j hkey
      have hd := hmDelete_getD st k2 j
      show (hmDelete st k2).1.buckets.getD j ((none : Option K), (none : Option V)) = _
      rw [hd, if_neg]
      simp only [bucketIsOccupied, hkey, decide_eq_true_eq, Option.some.injEq]
      exact fun h => hk2 h.symm

end AtomicHashmapModel

namespace AtomicHashmapModel

theorem hmGet_frame {K V : Type} [DecidableEq K] (hash : K → Nat) (st : HmState K V)
    (k : K) (op : HmOp K V) (hop : hmOpAvoids k op) (hwf : HmWF st) :
    hmGet hash (hmApply hash st op) k = hmGet hash st k := by
  obtain ⟨hiff, hval⟩ := hmApply_avoid_frame hash st k op hop hwf
  have hlk : hmLookup hash (hmApply hash st op) k = hmLookup hash st k := by
    rw [hmLookup, hmLookup, hmApply_levels]
    exact probeAux_congr (hash k) _ _ _ st.buckets
      (fun j => by
        simp only [bucketIsOccupied]
        exact decide_eq_decide.mpr (hiff j)) st.levels 0
  cases hl : hmLookup hash st k with
  | none => simp only [hmGet, hlk, hl]
  | some idx =>
    have hkey : (st.buckets.getD idx ((none : Option K), (none : Option V))).1 = some k := by
      have := probeAux_found (hash k) (fun bk => bucketIsOccupied bk k) st.levels 0
        st.buckets hl
      simpa [bucketIsOccupied] using this
    simp only [hmGet, hlk, hl, hval idx hkey]

theorem hmRun_wf {K V : Type} [DecidableEq K] (hash : K → Nat) :
    ∀ (L : List (HmOp K V)) (st : HmState K V), HmWF st → HmWF (hmRun hash st L) := by
  intro L
  induction L with
  | nil => intro st hwf; exact hwf
  | cons op L ih =>
    intro st hwf
    exact ih (hmApply hash st op) (hmApply_wf hash st op hwf)

theorem hmRun_avoid {K V : Type} [DecidableEq K] (hash : K → Nat) (k : K) :
    ∀ (L : List (HmOp K V)) (st : HmState K V), HmWF st →
      (∀ op ∈ L, hmOpAvoids k op) →
      hmGet hash (hmRun hash st L) k = hmGet hash st k := by
  intro L
  induction L with
  | nil => intro st _ _; rfl
  | cons op L ih =>
    intro st hwf hall
    have h1 : hmGet hash (hmRun hash (hmApply hash st op) L) k
        = hmGet hash (hmApply hash st op) k :=
      ih (hmApply hash st op) (hmApply_wf hash st op hwf)
        (fun o ho => hall o (by simp [ho]))
    have h2 : hmGet hash (hmApply hash st op) k = hmGet hash st k :=
      hmGet_frame hash st k op (hall op (by simp)) hwf
    exact h1.trans h2

theorem hmDelete_no_key {K V : Type} [DecidableEq K] (st : HmState K V) (k : K) :
    ∀ j, ((hmDelete st k).1.buckets.getD j ((none : Option K), (none : Option V))).1
      ≠ some k := by
  intro j
  rw [hmDelete_getD]
  by_cases hocc : bucketIsOccupied
      (st.buckets.getD j ((none : Option K), (none : Option V))) k = true
  · rw [if_pos hocc]
    simp
  · rw [if_neg hocc]
    simp only [bucketIsOccupied, decide_eq_true_eq] at hocc
    exact hocc

theorem hmApply_no_key {K V : Type} [DecidableEq K] (hash : K → Nat) (st : HmState K V)
    (k : K) (op : HmOp K V) (hop : hmOpNotSet k op) (hwf : HmWF st)
    (hnk : ∀ j, (st.buckets.getD j ((none : Option K), (none : Option V))).1 ≠ some k) :
    ∀ j, ((hmApply hash st op).buckets.getD j ((none : Option K), (none : Option V))).1
      ≠ some k := by
  cases op with
  | set k2 v2 =>
    have hk2 : k2 ≠ k := hop
    intro j
    cases hpe : probeAux (hash k2) (fun bk => bucketIsAvailable bk k2) st.levels 0
        st.buckets with
    | none =>
      have hst : (hmApply hash st (HmOp.set k2 v2)) = st := by
        simp [hmApply, hmSet, hmOccupy, hpe]
      rw [hst]
      exact hnk j
    | some idx =>
      have h0 : (hmSet hash true true st k2 v2).2 = 0 := by
        simp only [hmSet, hmOccupy, hpe, if_true]
      obtain ⟨idx2, hpe2, hlt2, hlev2, hbk2⟩ := hmSet_success hash st k2 v2 hwf h0
      have happ : (hmApply hash st (HmOp.set k2 v2)).buckets
          = st.buckets.set idx2 (some k2, some v2) := hbk2
      by_cases hj : idx2 = j
      · subst hj
        rw [happ, getD_set_self _ _ _ _ hlt2]
        simp [hk2]
      · rw [happ, getD_set_ne st.buckets hj]
        exact hnk j
  | del k2 =>
    intro j
    show ((hmDelete st k2).1.buckets.getD j ((none : Option K), (none : Option V))).1
      ≠ some k
    rw [hmDelete_getD]
    by_cases hocc : bucketIsOccupied
        (st.buckets.getD j ((none : Option K), (none : Option V))) k2 = true
    · rw [if_pos hocc]
      simp
    · rw [if_neg hocc]
      exact hnk j

theorem hmGet_none_of_no_key {K V : Type} [DecidableEq K] (hash : K → Nat)
    (st : HmState K V) (k : K)
    (hnk : ∀ j, (st.buckets.getD j ((none : Option K), (none : Option V))).1 ≠ some k) :
    hmGet hash st k = none := by
  have hlk : hmLookup hash st k = none := by
    rw [hmLookup]
    exact probeAux_none_of_no_match (hash k) _ st.buckets
      (fun j => by
        simp only [bucketIsOccupied]
        exact decide_eq_false (hnk j)) st.levels 0
  simp only [hmGet, hlk]

theorem hmRun_no_key {K V : Type} [DecidableEq K] (hash : K → Nat) (k : K) :
    ∀ (L : List (HmOp K V)) (st : HmState K V), HmWF st →
      (∀ op ∈ L, hmOpNotSet k op) →
      (∀ j, (st.buckets.getD j ((none : Option K), (none : Option V))).1 ≠ some k) →
      ∀ j, ((hmRun hash st L).buckets.getD j ((none : Option K), (none : Option V))).1
        ≠ some k := by
  intro L
  induction L with
  | nil => intro st _ _ hnk; exact hnk
  | cons op L ih =>
    intro st hwf hall hnk
    exact ih (hmApply hash st op) (hmApply_wf hash st op hwf)
      (fun o ho => hall o (by simp [ho]))
      (hmApply_no_key hash st k op (hall op (by simp)) hwf hnk)

/-- C6: in a single-threaded execution, after a successful Set(k, v)
(return value 0), any sequence of operations on other keys leaves
Get(k) returning an accessor holding v; after a subsequent Delete(k),
any further sequence containing no Set(k, _) (deletes of any key and
sets of other keys allowed) leaves Get(k) returning the empty
accessor.  This is the quiescent most-recent-surviving-Set property for
single-threaded histories. -/
theorem hashmap_set_get_delete {K V : Type} [DecidableEq K] (hash : K → Nat)
    (st : HmState K V) (k : K) (v : V) (L1 L2 : List (HmOp K V)) (hwf : HmWF st)
    (hset : (hmSet hash true true st k v).2 = 0)
    (h1 : ∀ op ∈ L1, hmOpAvoids k op) (h2 : ∀ op ∈ L2, hmOpNotSet k op) :
    hmGet hash (hmRun hash (hmSet hash true true st k v).1 L1) k = some v ∧
    hmGet hash
      (hmRun hash (hmDelete (hmRun hash (hmSet hash true true st k v).1 L1) k).1 L2) k
      = none := by
  have hwf2 : HmWF (hmSet hash true true st k v).1 := hmApply_wf hash st (HmOp.set k v) hwf
  have hwf3 : HmWF (hmRun hash (hmSet hash true true st k v).1 L1) :=
    hmRun_wf hash L1 _ hwf2
  have hwf4 : HmWF (hmDelete (hmRun hash (hmSet hash true true st k v).1 L1) k).1 :=
    hmApply_wf hash _ (HmOp.del k) hwf3
  constructor
  · rw [hmRun_avoid hash k L1 _ hwf2 h1]
    exact hmGet_after_set hash st k v hwf hset
  · exact hmGet_none_of_no_key hash _ k
      (hmRun_no_key hash k L2 _ hwf4 h2 (hmDelete_no_key _ k))

/-- Witness for hashmap_set_get_delete: a 2-level map of capacities 2
and 3, an identity hash, Set(0, 7), an interleaved Set(1, 5), Delete(0),
then Delete(1). -/
theorem hashmap_set_get_delete_witness :
    ((hmSet (fun n : Nat => n) true true
        { levels := [2, 3], buckets := List.replicate 5 (none, none) } 0 (7 : Nat)).2 = 0) ∧
    (hmGet (fun n : Nat => n)
      (hmRun (fun n : Nat => n)
        (hmSet (fun n : Nat => n) true true
          { levels := [2, 3], buckets := List.replicate 5 (none, none) } 0 (7 : Nat)).1
        [HmOp.set 1 5]) 0 = some 7 ∧
    hmGet (fun n : Nat => n)
      (hmRun (fun n : Nat => n)
        (hmDelete
          (hmRun (fun n : Nat => n)
            (hmSet (fun n : Nat => n) true true
              { levels := [2, 3], buckets := List.replicate 5 (none, none) } 0 (7 : Nat)).1
            [HmOp.set 1 5]) 0).1
        [HmOp.del 1]) 0 = none) := by
  refine ⟨by decide, ?_⟩
  refine hashmap_set_get_delete (fun n : Nat => n)
    { levels := [2, 3], buckets := List.replicate 5 (none, none) } 0 7
    [HmOp.set 1 5] [HmOp.del 1] ⟨?_, by decide⟩ (by decide) ?_ ?_
  · intro c hc
    rcases List.mem_cons.mp hc with rfl | hc2
    · decide
    · rcases List.mem_singleton.mp hc2 with rfl
      decide
  · intro op hop
    rw [List.mem_singleton] at hop
    subst hop
    exact (by decide : (1 : Nat) ≠ 0)
  · intro op hop
    rw [List.mem_singleton] at hop
    subst hop
    exact trivial

end AtomicHashmapModel
